import Mathlib

/-!
Verification of the semi-parametric discrete-choice estimator of
`pymanda/choices.py` (`ChoiceData` and `DiscreteChoice`).

The pandas code is shallowly embedded: a data row becomes an `Obs`
(covariate values in `coef_order` order, the choice-column value and the
weight), weights and probabilities become rationals, the mutable
`grouped`/`group` columns of the working frame become an explicit state
list, and fallible constructors become `Except`.
-/

namespace Pymanda

/-- One observation row as `DiscreteChoice.fit` sees it: the values of the
`coef_order` covariate columns in order, the value of the choice column, and
the weight (`cd.data[cd.wght_var]`, or `1` when no weight variable is set). -/
structure Obs where
  covs : List String
  choice : String
  wght : ℚ
deriving DecidableEq, Repr

instance : Inhabited Obs := ⟨⟨[], "", 0⟩⟩

/-- The separator the source joins covariate values with: `'\b'.join`. -/
def sigSep : String := "\x08"

/-- The joined string signature of a list of covariate values
(`'\b'.join(values)`). -/
def sig (vs : List String) : String := String.intercalate sigSep vs

/-- The covariate-value tuple a row is keyed by when the bin columns are the
first `p` covariates: `X.groupby(bin_by_cols)` keys rows by this tuple. -/
def prefixVals (p : Nat) (o : Obs) : List String := o.covs.take p

/-- The string label written into the `group` column on an eligible match:
`X[bin_by_cols].astype(str).agg('\b'.join, axis=1)`. -/
def roundKey (p : Nat) (o : Obs) : String := sig (prefixVals p o)

/-- Summed weight of the not-yet-grouped rows sharing the covariate tuple
`key`: `X[~X['grouped']].groupby(bin_by_cols).agg({'wght': ['sum']})`. -/
def ungroupedWeight (obs : List Obs) (st : List (Bool × String)) (p : Nat)
    (key : List String) : ℚ :=
  (((obs.zip st).filter fun x => !x.2.1 && (prefixVals p x.1 == key)).map
    fun x => x.1.wght).sum

/-- Whether the covariate tuple `key` occurs among the not-yet-grouped rows,
i.e. whether the left merge against the screen finds an entry for a row
(rows with no entry get `fillna(True)`). -/
def screenHasKey (obs : List Obs) (st : List (Bool × String)) (p : Nat)
    (key : List String) : Bool :=
  (obs.zip st).any fun x => !x.2.1 && (prefixVals p x.1 == key)

/-- The boolean the source stores in the `'sum'` column for a row:
`screen = (screen >= self.min_bin)` merged on the bin columns, then
`X['sum'] = X['sum'].fillna(True)`. -/
def sumFlag (minBin : ℚ) (obs : List Obs) (st : List (Bool × String)) (p : Nat)
    (o : Obs) : Bool :=
  if screenHasKey obs st p (prefixVals p o) then
    decide (minBin ≤ ungroupedWeight obs st p (prefixVals p o))
  else true

/-- One pass of the source's grouping loop body over the state columns:
`X['group'] = np.where((~X['grouped']) & (X['sum']), joined_key, X['group'])`
followed by `X['grouped'] = X['grouped'] | X['sum']`. -/
def fitStep (minBin : ℚ) (obs : List Obs) (p : Nat)
    (st : List (Bool × String)) : List (Bool × String) :=
  (obs.zip st).map fun x =>
    let s := sumFlag minBin obs st p x.1
    (x.2.1 || s, if !x.2.1 && s then roundKey p x.1 else x.2.2)

/-- The loop indices of `for i in range(4, len(self.coef_order) + 4)`. -/
def fitIndices (k : Nat) : List Nat := (List.range k).map fun j => 4 + j

/-- Width of the working frame `X`: the `k` covariate columns followed by the
choice column, `'wght'`, `'grouped'` and `'group'`. -/
def fitNumCols (k : Nat) : Nat := k + 4

/-- `bin_by_cols = X.columns[0:-i]` keeps the first `fitNumCols k - i`
columns, all of them covariates. -/
def binLen (k i : Nat) : Nat := fitNumCols k - i

/-- Initial state: `X['grouped'] = False`, `X['group'] = ""`. -/
def initState (obs : List Obs) : List (Bool × String) :=
  List.replicate obs.length (false, "")

/-- The source's grouping loop of `fit` with solver `'semiparametric'`. -/
def fitGroupLoop (minBin : ℚ) (obs : List Obs) (k : Nat) :
    List (Bool × String) :=
  (fitIndices k).foldl (fun st i => fitStep minBin obs (binLen k i) st)
    (initState obs)

/-- `X.loc[X['group'] == "", 'group'] = "ungrouped"`. -/
def finalizeGroup (s : String) : String := if s = "" then "ungrouped" else s

/-- The final group label of every observation produced by `fit`. -/
def fitGroups (minBin : ℚ) (obs : List Obs) (k : Nat) : List String :=
  (fitGroupLoop minBin obs k).map fun x => finalizeGroup x.2

/-- The truncation lengths as the specification states them: round 1 groups
by all `k` covariates and each later round drops the rightmost remaining
covariate, ending at a single-covariate grouping. -/
def specLens (k : Nat) : List Nat := (List.range k).map fun j => k - j

/-- One grouping round as the specification states it: every not-yet-grouped
observation whose group (among the not-yet-grouped observations, keyed by the
length-`p` covariate tuple) has summed weight at least `min_bin` is marked
grouped and assigned the joined prefix key; every other row is unchanged. -/
def specStep (minBin : ℚ) (obs : List Obs) (p : Nat)
    (st : List (Bool × String)) : List (Bool × String) :=
  (obs.zip st).map fun x =>
    if !x.2.1 && decide (minBin ≤ ungroupedWeight obs st p (prefixVals p x.1))
    then (true, roundKey p x.1) else x.2

/-- Run the specification rounds for the given truncation lengths. -/
def specLoopFrom (minBin : ℚ) (obs : List Obs) (ps : List Nat)
    (st : List (Bool × String)) : List (Bool × String) :=
  ps.foldl (fun st p => specStep minBin obs p st) st

/-- All specification rounds, finest truncation first. -/
def specGroupLoop (minBin : ℚ) (obs : List Obs) (k : Nat) :
    List (Bool × String) :=
  specLoopFrom minBin obs (specLens k) (initState obs)

/-- Final group labels of the specification-side grouping procedure. -/
def specGroups (minBin : ℚ) (obs : List Obs) (k : Nat) : List String :=
  (specGroupLoop minBin obs k).map fun x => finalizeGroup x.2

/-- State after the first `r` of the `k` grouping rounds. -/
def stAfter (minBin : ℚ) (obs : List Obs) (k r : Nat) :
    List (Bool × String) :=
  specLoopFrom minBin obs ((specLens k).take r) (initState obs)

/-- Observation `j` reaches an eligible group at round `r` (rounds counted
from `0`): it enters round `r` not yet grouped, and the summed weight of the
not-yet-grouped observations sharing its length-`(k - r)` covariate tuple is
at least `min_bin`. -/
def eligAt (minBin : ℚ) (obs : List Obs) (k r j : Nat) : Prop :=
  ((stAfter minBin obs k r).getD j (true, "")).1 = false ∧
    minBin ≤ ungroupedWeight obs (stAfter minBin obs k r) (k - r)
      (prefixVals (k - r) (obs.getD j default))

instance (minBin : ℚ) (obs : List Obs) (k r j : Nat) :
    Decidable (eligAt minBin obs k r j) := by
  unfold eligAt; infer_instance

-- basic lemmas ---------------------------------------------------------------

theorem fitStep_eq_specStep (minBin : ℚ) (obs : List Obs) (p : Nat)
    (st : List (Bool × String)) :
    fitStep minBin obs p st = specStep minBin obs p st := by
  unfold fitStep specStep
  refine List.map_congr_left ?_
  intro x hx
  obtain ⟨o, b, g⟩ := x
  by_cases hg : b
  · subst hg; simp
  · have hfalse : b = false := by simpa using hg
    subst hfalse
    have hscreen : screenHasKey obs st p (prefixVals p o) = true := by
      unfold screenHasKey
      refine List.any_eq_true.mpr ⟨⟨o, false, g⟩, hx, ?_⟩
      simp
    simp only [sumFlag, hscreen, if_true]
    by_cases hw : minBin ≤ ungroupedWeight obs st p (prefixVals p o)
    · simp [hw]
    · simp [hw]

theorem fitGroupLoop_eq_specGroupLoop (minBin : ℚ) (obs : List Obs) (k : Nat) :
    fitGroupLoop minBin obs k = specGroupLoop minBin obs k := by
  unfold fitGroupLoop specGroupLoop specLoopFrom fitIndices specLens
  rw [List.foldl_map, List.foldl_map]
  congr 1
  funext st j
  have h1 : binLen k (4 + j) = k - j := by
    unfold binLen fitNumCols; omega
  rw [h1, fitStep_eq_specStep]

theorem fitGroups_eq_specGroups (minBin : ℚ) (obs : List Obs) (k : Nat) :
    fitGroups minBin obs k = specGroups minBin obs k := by
  unfold fitGroups specGroups
  rw [fitGroupLoop_eq_specGroupLoop]

theorem specStep_length (minBin : ℚ) (obs : List Obs) (p : Nat)
    (st : List (Bool × String)) (hlen : st.length = obs.length) :
    (specStep minBin obs p st).length = obs.length := by
  unfold specStep
  simp [hlen]

theorem specLoopFrom_length (minBin : ℚ) (obs : List Obs) (ps : List Nat)
    (st : List (Bool × String)) (hlen : st.length = obs.length) :
    (specLoopFrom minBin obs ps st).length = obs.length := by
  induction ps generalizing st with
  | nil => exact hlen
  | cons p ps ih =>
      unfold specLoopFrom at *
      exact ih _ (specStep_length minBin obs p st hlen)

theorem initState_length (obs : List Obs) : (initState obs).length = obs.length := by
  unfold initState; simp

theorem stAfter_length (minBin : ℚ) (obs : List Obs) (k r : Nat) :
    (stAfter minBin obs k r).length = obs.length :=
  specLoopFrom_length minBin obs _ _ (initState_length obs)

theorem stAfter_zero (minBin : ℚ) (obs : List Obs) (k : Nat) :
    stAfter minBin obs k 0 = initState obs := rfl

theorem specLens_getElem (k r : Nat) (hr : r < k) :
    (specLens k).getD r 0 = k - r := by
  unfold specLens
  rw [List.getD_eq_getElem _ _ (by simpa using hr)]
  simp

theorem stAfter_succ (minBin : ℚ) (obs : List Obs) (k r : Nat) (hr : r < k) :
    stAfter minBin obs k (r + 1) =
      specStep minBin obs (k - r) (stAfter minBin obs k r) := by
  unfold stAfter
  have hlen : r < (specLens k).length := by unfold specLens; simpa using hr
  have htake : (specLens k).take (r + 1) = (specLens k).take r ++ [k - r] := by
    rw [List.take_succ]
    have : (specLens k)[r]? = some (k - r) := by
      rw [List.getElem?_eq_getElem hlen]
      unfold specLens
      simp
    simp [this]
  rw [htake]
  unfold specLoopFrom
  rw [List.foldl_append]
  rfl

theorem stAfter_top (minBin : ℚ) (obs : List Obs) (k : Nat) :
    stAfter minBin obs k k = specGroupLoop minBin obs k := by
  unfold stAfter specGroupLoop
  have : (specLens k).take k = specLens k := by
    refine List.take_of_length_le ?_
    unfold specLens; simp
  rw [this]

theorem initState_getD (obs : List Obs) (j : Nat) (hj : j < obs.length) :
    (initState obs).getD j (true, "") = (false, "") := by
  unfold initState
  rw [List.getD_eq_getElem _ _ (by simpa using hj)]
  simp

theorem specStep_getD (minBin : ℚ) (obs : List Obs) (p : Nat)
    (st : List (Bool × String)) (hlen : st.length = obs.length)
    (j : Nat) (hj : j < obs.length) :
    (specStep minBin obs p st).getD j (true, "") =
      (if !(st.getD j (true, "")).1 &&
          decide (minBin ≤ ungroupedWeight obs st p
            (prefixVals p (obs.getD j default)))
        then (true, roundKey p (obs.getD j default))
        else st.getD j (true, "")) := by
  have hjs : j < (specStep minBin obs p st).length := by
    rw [specStep_length minBin obs p st hlen]; exact hj
  have hjz : j < (obs.zip st).length := by
    rw [List.length_zip, hlen]; simpa using hj
  have hjst : j < st.length := by rw [hlen]; exact hj
  rw [List.getD_eq_getElem _ _ hjs, List.getD_eq_getElem _ _ hjst,
    List.getD_eq_getElem _ _ hj]
  unfold specStep
  simp only [List.get_eq_getElem, List.getElem_map, List.getElem_zip]

/-- Invariant of the grouping loop, per observation: after `r` rounds the
grouped flag is set iff some earlier round was eligible, an eligible round
fixes the stored label to that round's joined prefix key, and a clear flag
goes with an empty label. -/
theorem stAfter_invariant (minBin : ℚ) (obs : List Obs) (k : Nat)
    (j : Nat) (hj : j < obs.length) (r : Nat) (hr : r ≤ k) :
    (((stAfter minBin obs k r).getD j (true, "")).1 = true ↔
        ∃ r' < r, eligAt minBin obs k r' j) ∧
    (∀ r' < r, eligAt minBin obs k r' j →
        (stAfter minBin obs k r).getD j (true, "") =
          (true, roundKey (k - r') (obs.getD j default))) ∧
    (((stAfter minBin obs k r).getD j (true, "")).1 = false →
        ((stAfter minBin obs k r).getD j (true, "")).2 = "") := by
  induction r with
  | zero =>
      rw [stAfter_zero, initState_getD obs j hj]
      refine ⟨by simp, ?_, by simp⟩
      intro r' hr' _
      omega
  | succ r ih =>
      have hrk : r < k := by omega
      have ihr := ih (by omega)
      obtain ⟨ih1, ih2, ih3⟩ := ihr
      have hstep := specStep_getD minBin obs (k - r) (stAfter minBin obs k r)
        (stAfter_length minBin obs k r) j hj
      rw [stAfter_succ minBin obs k r hrk, hstep]
      by_cases hprev : ((stAfter minBin obs k r).getD j (true, "")).1 = true
      · -- already grouped: the row is unchanged
        have hcond : ¬((!((stAfter minBin obs k r).getD j (true, "")).1 &&
            decide (minBin ≤ ungroupedWeight obs (stAfter minBin obs k r)
              (k - r) (prefixVals (k - r) (obs.getD j default)))) = true) := by
          rw [hprev]; simp
        rw [if_neg hcond]
        refine ⟨?_, ?_, ?_⟩
        · constructor
          · intro _
            obtain ⟨r', hr', he⟩ := ih1.mp hprev
            exact ⟨r', by omega, he⟩
          · intro _; exact hprev
        · intro r' hr' he
          rcases Nat.lt_succ_iff_lt_or_eq.mp hr' with h | h
          · exact ih2 r' h he
          · subst h
            rw [he.1] at hprev
            exact Bool.noConfusion hprev
        · intro h; rw [hprev] at h; cases h
      · have hfalse : ((stAfter minBin obs k r).getD j (true, "")).1 = false := by
          simpa using hprev
        by_cases hw : minBin ≤ ungroupedWeight obs (stAfter minBin obs k r)
            (k - r) (prefixVals (k - r) (obs.getD j default))
        · -- becomes grouped this round
          have helig : eligAt minBin obs k r j := ⟨hfalse, hw⟩
          have hcond : (!((stAfter minBin obs k r).getD j (true, "")).1 &&
              decide (minBin ≤ ungroupedWeight obs (stAfter minBin obs k r)
                (k - r) (prefixVals (k - r) (obs.getD j default)))) = true := by
            rw [hfalse]; simpa using hw
          rw [if_pos hcond]
          refine ⟨?_, ?_, ?_⟩
          · exact ⟨fun _ => ⟨r, by omega, helig⟩, fun _ => rfl⟩
          · intro r' hr' he
            rcases Nat.lt_succ_iff_lt_or_eq.mp hr' with h | h
            · have h2 := ih2 r' h he
              rw [h2] at hfalse
              cases hfalse
            · subst h; rfl
          · intro h; cases h
        · -- stays ungrouped
          have hcond : ¬((!((stAfter minBin obs k r).getD j (true, "")).1 &&
              decide (minBin ≤ ungroupedWeight obs (stAfter minBin obs k r)
                (k - r) (prefixVals (k - r) (obs.getD j default)))) = true) := by
            rw [hfalse]; simpa using hw
          rw [if_neg hcond]
          refine ⟨?_, ?_, ?_⟩
          · constructor
            · intro h; rw [hfalse] at h; cases h
            · rintro ⟨r', hr', he⟩
              rcases Nat.lt_succ_iff_lt_or_eq.mp hr' with h | h
              · have h1 := ih1.mpr ⟨r', h, he⟩
                rw [hfalse] at h1
                exact Bool.noConfusion h1
              · subst h; exact absurd he.2 hw
          · intro r' hr' he
            rcases Nat.lt_succ_iff_lt_or_eq.mp hr' with h | h
            · have h2 := ih2 r' h he
              rw [h2] at hfalse
              cases hfalse
            · subst h; exact absurd he.2 hw
          · intro _; exact ih3 hfalse

theorem specGroupLoop_length (minBin : ℚ) (obs : List Obs) (k : Nat) :
    (specGroupLoop minBin obs k).length = obs.length :=
  specLoopFrom_length minBin obs _ _ (initState_length obs)

theorem fitGroups_length (minBin : ℚ) (obs : List Obs) (k : Nat) :
    (fitGroups minBin obs k).length = obs.length := by
  unfold fitGroups
  rw [fitGroupLoop_eq_specGroupLoop, List.length_map, specGroupLoop_length]

theorem fitGroups_getD (minBin : ℚ) (obs : List Obs) (k j : Nat)
    (hj : j < obs.length) :
    (fitGroups minBin obs k).getD j "" =
      finalizeGroup (((specGroupLoop minBin obs k).getD j (true, "")).2) := by
  unfold fitGroups
  rw [fitGroupLoop_eq_specGroupLoop]
  have hl : j < (specGroupLoop minBin obs k).length := by
    rw [specGroupLoop_length]; exact hj
  have hm : j < ((specGroupLoop minBin obs k).map
      (fun x => finalizeGroup x.2)).length := by simpa using hl
  rw [List.getD_eq_getElem _ _ hm, List.getD_eq_getElem _ _ hl]
  simp

/-- Characterization of a single observation's final group label: it is
`"ungrouped"` exactly when no round was eligible for it, and an eligible
round fixes it to that round's joined prefix key. -/
theorem fitGroups_char (minBin : ℚ) (obs : List Obs) (k : Nat)
    (hkey : ∀ o ∈ obs, ∀ p < k,
      roundKey (p + 1) o ≠ "" ∧ roundKey (p + 1) o ≠ "ungrouped")
    (j : Nat) (hj : j < obs.length) :
    ((fitGroups minBin obs k).getD j "" = "ungrouped" ↔
        ∀ r < k, ¬ eligAt minBin obs k r j) ∧
    (∀ r < k, eligAt minBin obs k r j →
        (fitGroups minBin obs k).getD j "" =
          roundKey (k - r) (obs.getD j default)) := by
  have hmem : obs.getD j default ∈ obs := by
    rw [List.getD_eq_getElem _ _ hj]
    exact List.getElem_mem hj
  have hkey' : ∀ r < k, roundKey (k - r) (obs.getD j default) ≠ "" ∧
      roundKey (k - r) (obs.getD j default) ≠ "ungrouped" := by
    intro r hr
    have h1 : k - r = (k - r - 1) + 1 := by omega
    have h2 : k - r - 1 < k := by omega
    rw [h1]
    exact hkey (obs.getD j default) hmem (k - r - 1) h2
  obtain ⟨inv1, inv2, inv3⟩ :=
    stAfter_invariant minBin obs k j hj k (le_refl k)
  rw [stAfter_top] at inv1 inv2 inv3
  have hfin := fitGroups_getD minBin obs k j hj
  constructor
  · constructor
    · -- label "ungrouped" means the flag never got set
      intro hug r hr helig
      have heq := inv2 r hr helig
      have hfin2 : (fitGroups minBin obs k).getD j "" =
          finalizeGroup (roundKey (k - r) (obs.getD j default)) := by
        rw [hfin, heq]
      unfold finalizeGroup at hfin2
      rw [if_neg (hkey' r hr).1] at hfin2
      exact (hkey' r hr).2 (hfin2.symm.trans hug)
    · intro hnone
      by_cases hflag : ((specGroupLoop minBin obs k).getD j (true, "")).1 = true
      · obtain ⟨r, hr, helig⟩ := inv1.mp hflag
        exact absurd helig (hnone r hr)
      · have hflag' : ((specGroupLoop minBin obs k).getD j (true, "")).1 = false := by
          simpa using hflag
        have hempty := inv3 hflag'
        rw [hempty] at hfin
        unfold finalizeGroup at hfin
        rw [if_pos rfl] at hfin
        exact hfin
  · intro r hr helig
    have heq := inv2 r hr helig
    have hfin2 : (fitGroups minBin obs k).getD j "" =
        finalizeGroup (roundKey (k - r) (obs.getD j default)) := by
      rw [hfin, heq]
    unfold finalizeGroup at hfin2
    rw [if_neg (hkey' r hr).1] at hfin2
    exact hfin2

/-- Claim C1: with solver `'semiparametric'`, `fit` performs exactly
`len(coef_order)` grouping rounds; the loop over `i in range(4, k + 4)` bins
by the covariate prefixes of lengths `k, k - 1, ..., 1`, so round 1 groups by
all `k` covariates and each later round drops the rightmost remaining one; in
each round every not-yet-grouped observation in a group whose summed weight is
at least `min_bin` is marked grouped and assigned the joined prefix key;
every observation that never reaches an eligible group ends with group key
`"ungrouped"`; and each observation ends with exactly one group key.
(Hypothesis: no joined covariate prefix is the empty string or the literal
`"ungrouped"`, the separator-signature assumption the specification makes.) -/
theorem fit_semiparametric_round_structure_and_grouping
    (minBin : ℚ) (obs : List Obs) (k : Nat)
    (hkey : ∀ o ∈ obs, ∀ p < k,
      roundKey (p + 1) o ≠ "" ∧ roundKey (p + 1) o ≠ "ungrouped") :
    ((fitIndices k).length = k ∧
      (fitIndices k).map (fun i => binLen k i) = specLens k ∧
      (∀ r < k, (specLens k).getD r 0 = k - r)) ∧
    fitGroups minBin obs k = specGroups minBin obs k ∧
    (fitGroups minBin obs k).length = obs.length ∧
    (∀ j, j < obs.length →
      ((fitGroups minBin obs k).getD j "" = "ungrouped" ↔
          ∀ r < k, ¬ eligAt minBin obs k r j) ∧
      (∀ r < k, eligAt minBin obs k r j →
          (fitGroups minBin obs k).getD j "" =
            roundKey (k - r) (obs.getD j default))) := by
  refine ⟨⟨?_, ?_, ?_⟩, fitGroups_eq_specGroups minBin obs k,
    fitGroups_length minBin obs k, fun j hj => fitGroups_char minBin obs k hkey j hj⟩
  · unfold fitIndices; simp
  · unfold fitIndices specLens
    rw [List.map_map]
    refine List.map_congr_left ?_
    intro j hj
    simp only [Function.comp_apply]
    unfold binLen fitNumCols
    omega
  · intro r hr
    exact specLens_getElem k r hr

-- the fitted cell table ------------------------------------------------------

/-- The distinct values of the fitting choice column, the columns of the
pivoted cell table. -/
def choiceVals (obs : List Obs) : List String := (obs.map (fun o => o.choice)).dedup

/-- The observations carrying group label `g` (pairing each observation with
its final label). -/
def groupRows (obs : List Obs) (gs : List String) (g : String) : List Obs :=
  ((obs.zip gs).filter fun x => x.2 == g).map fun x => x.1

/-- One cell of `pivot_table(index='group', columns=choice, aggfunc='sum',
fill_value=0)`: summed weight of the observations with group `g` and choice
`c`. -/
def cellWeight (obs : List Obs) (gs : List String) (g c : String) : ℚ :=
  (((groupRows obs gs g).filter fun o => o.choice == c).map fun o => o.wght).sum

/-- `X['rowsum'] = X.sum(axis=1)`: the sum of a group's row across the choice
columns of the pivot. -/
def rowSum (obs : List Obs) (gs : List String) (g : String) : ℚ :=
  ((choiceVals obs).map fun c => cellWeight obs gs g c).sum

/-- The total weight of the observations in group `g`. -/
def rowTotal (obs : List Obs) (gs : List String) (g : String) : ℚ :=
  ((groupRows obs gs g).map fun o => o.wght).sum

/-- One share entry of the fitted cell table: `X[x] = X[x] / X['rowsum']`. -/
def cellShare (obs : List Obs) (gs : List String) (g c : String) : ℚ :=
  cellWeight obs gs g c / rowSum obs gs g

/-- The row index of the fitted cell table: the distinct group labels. -/
def tableGroups (gs : List String) : List String := gs.dedup

theorem sum_map_ite_single {cs : List String} (hnd : cs.Nodup) (a : String)
    (ha : a ∈ cs) (w : ℚ) :
    (cs.map fun c => if a == c then w else 0).sum = w := by
  induction cs with
  | nil => cases ha
  | cons c cs ih =>
      rcases List.mem_cons.mp ha with h | h
      · subst h
        have hnotin : a ∉ cs := (List.nodup_cons.mp hnd).1
        have hzero : (cs.map fun c => if a == c then w else 0).sum = 0 := by
          have : ∀ c ∈ cs, (if a == c then w else 0) = 0 := by
            intro c hc
            rw [if_neg]
            intro hbeq
            exact hnotin (by rwa [eq_of_beq hbeq])
          rw [List.map_congr_left this]
          simp
        rw [List.map_cons, List.sum_cons, if_pos (by simp), hzero, add_zero]
      · have hne : a ≠ c := by
          rintro rfl
          exact (List.nodup_cons.mp hnd).1 h
        have h0 : (if a == c then w else 0) = 0 := by
          rw [if_neg]
          intro hbeq
          exact hne (eq_of_beq hbeq)
        rw [List.map_cons, List.sum_cons, h0, zero_add]
        exact ih (List.nodup_cons.mp hnd).2 h

/-- Summing the per-choice filtered weights over all distinct choice values
recovers the total weight. -/
theorem sum_filter_partition (rows : List Obs) (cs : List String)
    (hnd : cs.Nodup) (hmem : ∀ o ∈ rows, o.choice ∈ cs) :
    (cs.map fun c => ((rows.filter fun o => o.choice == c).map
        fun o => o.wght).sum).sum = (rows.map fun o => o.wght).sum := by
  induction rows with
  | nil => simp
  | cons o rows ih =>
      have hsplit : ∀ c, ((o :: rows).filter fun o => o.choice == c) =
          if o.choice == c then o :: (rows.filter fun o => o.choice == c)
          else rows.filter fun o => o.choice == c := by
        intro c
        by_cases h : o.choice == c
        · simp [List.filter_cons, h]
        · simp [List.filter_cons, h]
      have hfun : ∀ c ∈ cs, (((o :: rows).filter fun o => o.choice == c).map
          fun o => o.wght).sum =
            (if o.choice == c then o.wght else 0) +
              ((rows.filter fun o => o.choice == c).map fun o => o.wght).sum := by
        intro c _
        rw [hsplit c]
        by_cases h : o.choice == c
        · rw [if_pos h, if_pos h]
          simp
        · rw [if_neg h, if_neg h, zero_add]
      rw [List.map_congr_left hfun, List.sum_map_add]
      rw [sum_map_ite_single hnd o.choice (hmem o (List.mem_cons_self o rows)) o.wght]
      rw [ih (fun o ho => hmem o (List.mem_cons_of_mem _ ho))]
      simp

theorem groupRows_choice_mem (obs : List Obs) (gs : List String) (g : String) :
    ∀ o ∈ groupRows obs gs g, o.choice ∈ choiceVals obs := by
  intro o ho
  unfold groupRows at ho
  obtain ⟨x, hx, hxo⟩ := List.mem_map.mp ho
  have hxobs : x.1 ∈ obs := (List.of_mem_zip (List.mem_of_mem_filter hx)).1
  unfold choiceVals
  rw [List.mem_dedup]
  exact List.mem_map.mpr ⟨x.1, hxobs, by rw [hxo]⟩

theorem rowSum_eq_rowTotal (obs : List Obs) (gs : List String) (g : String) :
    rowSum obs gs g = rowTotal obs gs g := by
  unfold rowSum rowTotal cellWeight
  exact sum_filter_partition (groupRows obs gs g) (choiceVals obs)
    (List.nodup_dedup _) (groupRows_choice_mem obs gs g)

theorem rowTotal_pos (obs : List Obs) (gs : List String) (g : String)
    (hlen : gs.length = obs.length) (hw : ∀ o ∈ obs, 0 < o.wght)
    (hg : g ∈ gs) : 0 < rowTotal obs gs g := by
  obtain ⟨j, hj, hget⟩ := List.mem_iff_getElem.mp hg
  have hjo : j < obs.length := by rw [← hlen]; exact hj
  have hjz : j < (obs.zip gs).length := by
    rw [List.length_zip, hlen]
    simpa using hjo
  have hmemz : (obs[j], gs[j]) ∈ obs.zip gs := by
    have : (obs.zip gs)[j] = (obs[j], gs[j]) := List.getElem_zip
    rw [← this]
    exact List.getElem_mem hjz
  have hmemf : (obs[j], gs[j]) ∈ (obs.zip gs).filter fun x => x.2 == g := by
    rw [List.mem_filter]
    exact ⟨hmemz, by simp [hget]⟩
  have hmem : obs[j] ∈ groupRows obs gs g := by
    unfold groupRows
    exact List.mem_map.mpr ⟨(obs[j], gs[j]), hmemf, rfl⟩
  unfold rowTotal
  refine List.sum_pos _ ?_ ?_
  · intro x hx
    obtain ⟨o, ho, hxo⟩ := List.mem_map.mp hx
    obtain ⟨y, hy, hyo⟩ := List.mem_map.mp ho
    have hyobs : y.1 ∈ obs := (List.of_mem_zip (List.mem_of_mem_filter hy)).1
    rw [← hxo]
    exact hw o (hyo ▸ hyobs)
  · intro hnil
    rw [List.map_eq_nil_iff] at hnil
    rw [hnil] at hmem
    cases hmem

/-- Claim C2: in the fitted cell table each row is the per-choice summed
weight divided by the row's total weight, so every row's share vector sums
to 1; and the `"ungrouped"` row is present exactly when some observation
remained ungrouped (never reached an eligible group), so an empty ungrouped
cell is omitted.  Hypotheses: positive weights and the separator-signature
assumption on joined prefix keys. -/
theorem fit_cell_table_normalized (minBin : ℚ) (obs : List Obs) (k : Nat)
    (hw : ∀ o ∈ obs, 0 < o.wght)
    (hkey : ∀ o ∈ obs, ∀ p < k,
      roundKey (p + 1) o ≠ "" ∧ roundKey (p + 1) o ≠ "ungrouped") :
    (∀ g ∈ tableGroups (fitGroups minBin obs k),
      rowSum obs (fitGroups minBin obs k) g =
        rowTotal obs (fitGroups minBin obs k) g ∧
      ((choiceVals obs).map fun c =>
        cellShare obs (fitGroups minBin obs k) g c).sum = 1) ∧
    ("ungrouped" ∈ tableGroups (fitGroups minBin obs k) ↔
      ∃ j < obs.length, ∀ r < k, ¬ eligAt minBin obs k r j) := by
  constructor
  · intro g hg
    have hgs : g ∈ fitGroups minBin obs k := by
      unfold tableGroups at hg
      exact List.mem_dedup.mp hg
    have hpos := rowTotal_pos obs (fitGroups minBin obs k) g
      (fitGroups_length minBin obs k) hw hgs
    have heq := rowSum_eq_rowTotal obs (fitGroups minBin obs k) g
    refine ⟨heq, ?_⟩
    have hdiv : (choiceVals obs).map
        (fun c => cellShare obs (fitGroups minBin obs k) g c) =
        (choiceVals obs).map (fun c =>
          cellWeight obs (fitGroups minBin obs k) g c *
            (rowSum obs (fitGroups minBin obs k) g)⁻¹) := by
      refine List.map_congr_left ?_
      intro c _
      unfold cellShare
      rw [div_eq_mul_inv]
    rw [hdiv, List.sum_map_mul_right]
    have hrs : ((choiceVals obs).map
        (fun c => cellWeight obs (fitGroups minBin obs k) g c)).sum =
        rowSum obs (fitGroups minBin obs k) g := rfl
    rw [hrs]
    refine mul_inv_cancel₀ ?_
    rw [heq]
    exact ne_of_gt hpos
  · have hlen := fitGroups_length minBin obs k
    unfold tableGroups
    rw [List.mem_dedup]
    constructor
    · intro hmem
      obtain ⟨j, hj, hget⟩ := List.mem_iff_getElem.mp hmem
      have hjo : j < obs.length := by rw [← hlen]; exact hj
      refine ⟨j, hjo, ?_⟩
      have hgetD : (fitGroups minBin obs k).getD j "" = "ungrouped" := by
        rw [List.getD_eq_getElem _ _ hj]
        exact hget
      exact ((fitGroups_char minBin obs k hkey j hjo).1).mp hgetD
    · rintro ⟨j, hj, hnone⟩
      have hgetD := ((fitGroups_char minBin obs k hkey j hj).1).mpr hnone
      have hjg : j < (fitGroups minBin obs k).length := by
        rw [hlen]; exact hj
      rw [List.getD_eq_getElem _ _ hjg] at hgetD
      rw [← hgetD]
      exact List.getElem_mem hjg

-- predict ---------------------------------------------------------------------

/-- The group-matching loop of `predict`: for `n in range(len(coef_order))`
join the first `len(coef_order) - n` covariate values and take the first
(longest) joined key found among the fitted group keys
(`np.where((X['g'].isin(coef_['group'])) & (X['group'] == ""), X['g'],
X['group'])`). -/
def predictGroupLoop (keys : List String) (k : Nat) (covs : List String) :
    String :=
  (List.range k).foldl (fun cur n =>
    if keys.contains (sig (covs.take (k - n))) && (cur == "")
    then sig (covs.take (k - n)) else cur) ""

/-- The group `predict` assigns to an observation, after
`X.loc[X['group'] == "", 'group'] = "ungrouped"`. -/
def predictGroup (keys : List String) (k : Nat) (covs : List String) : String :=
  finalizeGroup (predictGroupLoop keys k covs)

/-- The specification's description of the matcher: the joined longest prefix
(full fit-time length first, down to length 1) whose key is among the fitted
group keys, else `"ungrouped"`. -/
def longestMatch (keys : List String) (k : Nat) (covs : List String) : String :=
  match (specLens k).find? (fun p => keys.contains (sig (covs.take p))) with
  | some p => sig (covs.take p)
  | none => "ungrouped"

/-- The left merge of the assigned group against the fitted cell table: the
share row stored for a group key (`pd.merge(X, self.coef_, how='left',
on='group')`), `none` when the key has no fitted row. -/
def tableLookup {β : Type} (table : List (String × β)) (g : String) :
    Option β :=
  (table.find? fun r => r.1 == g).map fun r => r.2

/-- The predicted share row of one observation. -/
def predictRow {β : Type} (table : List (String × β)) (k : Nat)
    (covs : List String) : Option β :=
  tableLookup table (predictGroup (table.map fun r => r.1) k covs)

theorem matchFold_stay (keys : List String) (f : Nat → String) (ps : List Nat)
    (c : String) (hc : c ≠ "") :
    ps.foldl (fun cur p =>
      if keys.contains (f p) && (cur == "") then f p else cur) c = c := by
  induction ps with
  | nil => rfl
  | cons p ps ih =>
      have hbeq : (c == "") = false := beq_eq_false_iff_ne.mpr hc
      have hcond : (keys.contains (f p) && (c == "")) = false := by
        rw [hbeq, Bool.and_false]
      rw [List.foldl_cons, if_neg (by rw [hcond]; exact Bool.false_ne_true)]
      exact ih

theorem matchFold_first (keys : List String) (f : Nat → String) (ps : List Nat)
    (hne : ∀ p ∈ ps, f p ≠ "") :
    ps.foldl (fun cur p =>
        if keys.contains (f p) && (cur == "") then f p else cur) "" =
      (match ps.find? (fun p => keys.contains (f p)) with
        | some p => f p
        | none => "") := by
  induction ps with
  | nil => rfl
  | cons p ps ih =>
      by_cases hcon : keys.contains (f p)
      · have hcond : (keys.contains (f p) && ("" == "")) = true := by
          rw [hcon]; rfl
        rw [List.foldl_cons, if_pos hcond]
        rw [matchFold_stay keys f ps (f p) (hne p (List.mem_cons_self p ps))]
        have hfind : List.find? (fun q => keys.contains (f q)) (p :: ps) =
            some p := by
          have hdec : decide (f p ∈ keys) = true := by simpa using hcon
          simp [List.find?_cons, hdec]
        rw [hfind]
      · have hconf : keys.contains (f p) = false := by simpa using hcon
        have hcond : (keys.contains (f p) && ("" == "")) = false := by
          rw [hconf, Bool.false_and]
        rw [List.foldl_cons, if_neg (by rw [hcond]; exact Bool.false_ne_true)]
        have hfind : List.find? (fun q => keys.contains (f q)) (p :: ps) =
            List.find? (fun q => keys.contains (f q)) ps := by
          have hdec : decide (f p ∈ keys) = false := by simpa using hconf
          simp [List.find?_cons, hdec]
        rw [hfind]
        exact ih fun q hq => hne q (List.mem_cons_of_mem _ hq)

/-- Claim C3: `predict` assigns each observation the longest prefix of its
`coef_order` values — tried from the full fit-time length down to length 1,
joined with the same `'\b'` separator as `fit` — whose key is among the
fitted group keys, assigns `"ungrouped"` when no prefix matches, and outputs
for each observation exactly the fitted share row stored under its assigned
group (the left merge yields `none` when that key has no fitted row).
Hypothesis: no joined prefix of the observation is the empty string. -/
theorem predict_longest_prefix_match (keys : List String) (k : Nat)
    (covs : List String) (hne : ∀ p < k, sig (covs.take (p + 1)) ≠ "") :
    predictGroup keys k covs = longestMatch keys k covs ∧
    (∀ table : List (String × List ℚ),
      (table.map fun r => r.1) = keys →
        predictRow table k covs = tableLookup table (longestMatch keys k covs)) := by
  have hne' : ∀ p ∈ specLens k, sig (covs.take p) ≠ "" := by
    intro p hp
    unfold specLens at hp
    obtain ⟨j, hj, hval⟩ := List.mem_map.mp hp
    have hjk : j < k := List.mem_range.mp hj
    have hp1 : p = (p - 1) + 1 := by omega
    rw [hp1]
    exact hne (p - 1) (by omega)
  have hmain : predictGroup keys k covs = longestMatch keys k covs := by
    unfold predictGroup predictGroupLoop longestMatch
    have hfold : (List.range k).foldl (fun cur n =>
        if keys.contains (sig (covs.take (k - n))) && (cur == "")
        then sig (covs.take (k - n)) else cur) "" =
        (specLens k).foldl (fun cur p =>
          if keys.contains (sig (covs.take p)) && (cur == "")
          then sig (covs.take p) else cur) "" := by
      unfold specLens
      rw [List.foldl_map]
    rw [hfold, matchFold_first keys (fun p => sig (covs.take p)) (specLens k) hne']
    cases hfind : (specLens k).find? (fun p => keys.contains (sig (covs.take p))) with
    | none => rfl
    | some p =>
        have hp : p ∈ specLens k := List.mem_of_find?_eq_some hfind
        unfold finalizeGroup
        rw [if_neg (hne' p hp)]
  refine ⟨hmain, ?_⟩
  intro table htab
  unfold predictRow
  rw [htab, hmain]

-- prediction tables and diversion --------------------------------------------

/-- A cell of a prediction table: pandas columns hold either numbers
(probabilities, weights) or strings (the written `'choice'` column). -/
inductive CVal where
  | num : ℚ → CVal
  | str : String → CVal
deriving DecidableEq, Repr

/-- A dataframe: named columns, and per row the column-name/value pairs in
column order. -/
structure PTable where
  cols : List String
  rows : List (List (String × CVal))
deriving DecidableEq, Repr

/-- Read a row's cell by column name. -/
def rowGet (r : List (String × CVal)) (c : String) : CVal :=
  ((r.find? fun e => e.1 == c).map fun e => e.2).getD (CVal.num 0)

/-- Read a numeric cell (0 for a missing or non-numeric cell). -/
def rowQ (r : List (String × CVal)) (c : String) : ℚ :=
  match rowGet r c with
  | CVal.num q => q
  | CVal.str _ => 0

/-- Read a string cell ("" for a missing or non-string cell). -/
def rowS (r : List (String × CVal)) (c : String) : String :=
  match rowGet r c with
  | CVal.str s => s
  | CVal.num _ => ""

/-- Write one cell of a row: replace the value under an existing column name,
otherwise append a new trailing column, as pandas column assignment does. -/
def rowSet (r : List (String × CVal)) (c : String) (v : CVal) :
    List (String × CVal) :=
  if r.any fun e => e.1 == c then r.map fun e => if e.1 == c then (c, v) else e
  else r ++ [(c, v)]

/-- Column assignment `df[c] = vs`: mutates the dataframe, adding the column
when absent. -/
def setCol (t : PTable) (c : String) (vs : List CVal) : PTable where
  cols := if t.cols.contains c then t.cols else t.cols ++ [c]
  rows := (t.rows.zip vs).map fun rv => rowSet rv.1 c rv.2

/-- `all_choices = list(choice_probs['choice'].unique())`: the distinct
observed choices, read from the written `'choice'` column. -/
def allChoices (t : PTable) : List String :=
  (t.rows.map fun r => rowS r "choice").dedup

/-- `df = choice_probs[choice_probs['choice'].isin(div_list)]`: the rows
whose observed choice lies in the target's choice set. -/
def selRows (t : PTable) (divList : List String) :
    List (List (String × CVal)) :=
  t.rows.filter fun r => divList.contains (rowS r "choice")

/-- `all_choice_temp = [x for x in all_choices if x not in div_list]`: the
non-target columns. -/
def nonTargetCols (t : PTable) (divList : List String) : List String :=
  (allChoices t).filter fun c => !(divList.contains c)

/-- `df['rowsum'] = df[all_choice_temp].sum(axis=1)`. -/
def rowsumOf (temp : List String) (r : List (String × CVal)) : ℚ :=
  (temp.map fun c => rowQ r c).sum

/-- One summed diversion column entry before the final renormalization:
`df[x] = df[x] / df['rowsum'] * df['wght']` summed over the selected rows. -/
def divColSum (t : PTable) (divList : List String) (c : String) : ℚ :=
  ((selRows t divList).map fun r =>
    rowQ r c / rowsumOf (nonTargetCols t divList) r * rowQ r "wght").sum

/-- The same entry written as the specification reads: weight times the
renormalized row probability, summed across the selected rows. -/
def divColSumSpec (t : PTable) (divList : List String) (c : String) : ℚ :=
  ((selRows t divList).map fun r =>
    rowQ r "wght" * (rowQ r c / rowsumOf (nonTargetCols t divList) r)).sum

/-- `df.sum()` over the non-target columns: the denominator of the final
`df / df.sum()` renormalization. -/
def divTotal (t : PTable) (divList : List String) : ℚ :=
  ((nonTargetCols t divList).map fun c => divColSum t divList c).sum

/-- One diversion output column, indexed by `all_choices` (the left merge
leaves the target's own choice-set entries empty). -/
def diversionCol (t : PTable) (divList : List String) :
    List (String × Option ℚ) :=
  (allChoices t).map fun c =>
    (c, if divList.contains c then none
        else some (divColSum t divList c / divTotal t divList))

/-- The target's choice set: the choices mapped to the target corporation via
`corp_map` when corp and choice columns differ, else the target itself. -/
def divListFor (corpMap : List (String × String)) (useCorpMap : Bool)
    (d : String) : List String :=
  if useCorpMap then (corpMap.filter fun e => e.1 == d).map fun e => e.2
  else [d]

/-- The whole `diversion` computation: write the `'choice'` and `'wght'`
columns into the caller's prediction table, then produce one diversion column
per requested target.  Returns the post-call table together with the output
(the source mutates `choice_probs` in place). -/
def diversionRun (t : PTable) (cdChoices : List String) (wghts : List ℚ)
    (corpMap : List (String × String)) (useCorpMap : Bool)
    (divChoices : List String) :
    PTable × List (String × List (String × Option ℚ)) :=
  let t2 := setCol (setCol t "choice" (cdChoices.map CVal.str)) "wght"
    (wghts.map CVal.num)
  (t2, divChoices.map fun d => (d, diversionCol t2 (divListFor corpMap useCorpMap d)))

/-- The worked example of the specification: three rows choosing A with
probabilities `[_, .4, .6]`, `[_, .5, .5]`, `[_, .3, .7]` and weight 1 (plus
one row each choosing B and C so that B and C are observed choices). -/
def exPre : PTable where
  cols := ["A", "B", "C"]
  rows := [
    [("A", CVal.num 0), ("B", CVal.num (2/5)), ("C", CVal.num (3/5))],
    [("A", CVal.num 0), ("B", CVal.num (1/2)), ("C", CVal.num (1/2))],
    [("A", CVal.num 0), ("B", CVal.num (3/10)), ("C", CVal.num (7/10))],
    [("A", CVal.num (1/2)), ("B", CVal.num 0), ("C", CVal.num (1/2))],
    [("A", CVal.num (1/2)), ("B", CVal.num (1/2)), ("C", CVal.num 0)]]

/-- The example table after `diversion` writes the `'choice'` and `'wght'`
columns. -/
def exMut : PTable where
  cols := ["A", "B", "C", "choice", "wght"]
  rows := [
    [("A", CVal.num 0), ("B", CVal.num (2/5)), ("C", CVal.num (3/5)),
      ("choice", CVal.str "A"), ("wght", CVal.num 1)],
    [("A", CVal.num 0), ("B", CVal.num (1/2)), ("C", CVal.num (1/2)),
      ("choice", CVal.str "A"), ("wght", CVal.num 1)],
    [("A", CVal.num 0), ("B", CVal.num (3/10)), ("C", CVal.num (7/10)),
      ("choice", CVal.str "A"), ("wght", CVal.num 1)],
    [("A", CVal.num (1/2)), ("B", CVal.num 0), ("C", CVal.num (1/2)),
      ("choice", CVal.str "B"), ("wght", CVal.num 1)],
    [("A", CVal.num (1/2)), ("B", CVal.num (1/2)), ("C", CVal.num 0),
      ("choice", CVal.str "C"), ("wght", CVal.num 1)]]

/-- Claim C4: for every target, `diversion` selects the prediction rows whose
observed choice lies in the target's choice set, renormalizes each such row
over the non-target columns, multiplies by the observation's weight, sums
across rows and renormalizes the result, so every returned diversion column
sums to 1 over the non-target choices (whenever the summed vector is not
identically zero); and on the specification's worked example the diversion of
target `{A}` is `B = 0.4`, `C = 0.6`. -/
theorem diversion_renormalizes_and_example :
    (∀ (t : PTable) (divList : List String) (c : String),
      divColSum t divList c = divColSumSpec t divList c) ∧
    (∀ (t : PTable) (divList : List String), divTotal t divList ≠ 0 →
      ((nonTargetCols t divList).map
        (fun c => divColSum t divList c / divTotal t divList)).sum = 1) ∧
    (diversionRun exPre ["A", "A", "A", "B", "C"] [1, 1, 1, 1, 1] [] false
        ["A"]).2 =
      [("A", [("A", none), ("B", some (2/5)), ("C", some (3/5))])] := by
  refine ⟨?_, ?_, ?_⟩
  · intro t divList c
    unfold divColSum divColSumSpec
    refine congrArg List.sum (List.map_congr_left ?_)
    intro r _
    rw [mul_comm]
  · intro t divList htot
    have hdiv : (nonTargetCols t divList).map
        (fun c => divColSum t divList c / divTotal t divList) =
        (nonTargetCols t divList).map
          (fun c => divColSum t divList c * (divTotal t divList)⁻¹) := by
      refine List.map_congr_left ?_
      intro c _
      rw [div_eq_mul_inv]
    rw [hdiv, List.sum_map_mul_right]
    have hrs : ((nonTargetCols t divList).map
        (fun c => divColSum t divList c)).sum = divTotal t divList := rfl
    rw [hrs]
    exact mul_inv_cancel₀ htot
  · have hrun : (diversionRun exPre ["A", "A", "A", "B", "C"] [1, 1, 1, 1, 1]
        [] false ["A"]).2 = [("A", diversionCol exMut ["A"])] := rfl
    have hcol : diversionCol exMut ["A"] =
        [("A", none),
         ("B", some (divColSum exMut ["A"] "B" / divTotal exMut ["A"])),
         ("C", some (divColSum exMut ["A"] "C" / divTotal exMut ["A"]))] := rfl
    have hB : divColSum exMut ["A"] "B" = 6 / 5 := by
      norm_num +decide [divColSum, selRows, rowsumOf, nonTargetCols,
        allChoices, rowQ, rowS, rowGet, exMut, List.find?_cons,
        List.filter_cons]
    have hC : divColSum exMut ["A"] "C" = 9 / 5 := by
      norm_num +decide [divColSum, selRows, rowsumOf, nonTargetCols,
        allChoices, rowQ, rowS, rowGet, exMut, List.find?_cons,
        List.filter_cons]
    have hnt : nonTargetCols exMut ["A"] = ["B", "C"] := rfl
    have htot : divTotal exMut ["A"] = 3 := by
      unfold divTotal
      rw [hnt]
      simp only [List.map_cons, List.map_nil, List.sum_cons, List.sum_nil,
        hB, hC]
      norm_num
    rw [hrun, hcol, hB, hC, htot]
    norm_num

/-- Claim C8 (amended): `diversion` mutates the caller-supplied prediction
table in place — `choice_probs['choice'] = cd.data[choice]` and
`choice_probs['wght'] = ...` append two columns whenever they are absent, so
the post-call table never equals the table passed in. -/
theorem diversion_writes_choice_and_wght_columns
    (t : PTable) (cdChoices : List String) (wghts : List ℚ)
    (corpMap : List (String × String)) (useCorpMap : Bool)
    (divChoices : List String)
    (hch : ¬ t.cols.contains "choice" = true)
    (hw : ¬ t.cols.contains "wght" = true) :
    ((diversionRun t cdChoices wghts corpMap useCorpMap divChoices).1).cols =
      t.cols ++ ["choice", "wght"] ∧
    (diversionRun t cdChoices wghts corpMap useCorpMap divChoices).1 ≠ t := by
  have setCol_cols : ∀ (s : PTable) (c : String) (vs : List CVal),
      (setCol s c vs).cols =
        if s.cols.contains c then s.cols else s.cols ++ [c] :=
    fun _ _ _ => rfl
  have h1 : (setCol t "choice" (cdChoices.map CVal.str)).cols =
      t.cols ++ ["choice"] := by
    rw [setCol_cols, if_neg hch]
  have h2 : ¬ (setCol t "choice" (cdChoices.map CVal.str)).cols.contains
      "wght" = true := by
    rw [h1]
    intro hcontains
    have hmem : "wght" ∈ t.cols ++ ["choice"] := by simpa using hcontains
    rcases List.mem_append.mp hmem with h | h
    · exact hw (by simpa using h)
    · simp at h
  have hcols : ((diversionRun t cdChoices wghts corpMap useCorpMap
      divChoices).1).cols = t.cols ++ ["choice", "wght"] := by
    show (setCol (setCol t "choice" (cdChoices.map CVal.str)) "wght"
      (wghts.map CVal.num)).cols = t.cols ++ ["choice", "wght"]
    rw [setCol_cols, if_neg h2, h1, List.append_assoc]
    rfl
  refine ⟨hcols, ?_⟩
  intro heq
  have hc := congrArg PTable.cols heq
  rw [hcols] at hc
  have hlen := congrArg List.length hc
  simp only [List.length_append, List.length_cons, List.length_nil] at hlen
  omega

/-- Claim C8 counterexample: a concrete `diversion` call whose caller-supplied
prediction table differs after the call (two columns were added). -/
theorem diversion_mutation_counterexample :
    (diversionRun exPre ["A", "A", "A", "B", "C"] [1, 1, 1, 1, 1] [] false
      ["A"]).1 ≠ exPre := by
  intro h
  have hc := congrArg PTable.cols h
  exact absurd hc (by decide)

/-- Claim C8 witness: the mutation theorem applied to the worked example. -/
theorem diversion_writes_columns_witness :
    ((diversionRun exPre ["A", "A", "A", "B", "C"] [1, 1, 1, 1, 1] [] false
      ["A"]).1).cols = ["A", "B", "C"] ++ ["choice", "wght"] :=
  (diversion_writes_choice_and_wght_columns exPre
    ["A", "A", "A", "B", "C"] [1, 1, 1, 1, 1] [] false ["A"]
    (by decide) (by decide)).1

-- willingness to pay ----------------------------------------------------------

/-- `wtp_df['combined'] = wtp_df.sum(axis=1)`: an observation's combined
probability of choosing any member of the transaction set. -/
def combinedP (members : List String) (r : List (String × CVal)) : ℚ :=
  (members.map fun c => rowQ r c).sum

/-- `(wtp_df == 1).any().any()`: whether any individual or combined
probability equals exactly 1 (the source then emits a non-fatal
`RuntimeWarning` and continues). -/
def probOneWarn (t : PTable) (members : List String) : Bool :=
  t.rows.any fun r =>
    (members.any fun c => rowQ r c == 1) || (combinedP members r == 1)

/-- The WTP transform `-1 * np.log(1 - p)`, valued in the extended reals:
`+∞` at `p = 1` exactly as `numpy` produces `inf` from `-log(0)`. -/
noncomputable def negLog1m (p : ℚ) : EReal :=
  if p = 1 then ⊤ else (((- Real.log (1 - (p : ℝ))) : ℝ) : EReal)

/-- Aggregate WTP of one choice column: transform, multiply by the
observation weight, sum over all observations. -/
noncomputable def indWtp (t : PTable) (wghts : List ℚ) (c : String) : EReal :=
  ((t.rows.zip wghts).map fun rw =>
    negLog1m (rowQ rw.1 c) * (((rw.2 : ℝ)) : EReal)).sum

/-- Aggregate WTP of the combined entity. -/
noncomputable def combWtp (t : PTable) (wghts : List ℚ)
    (members : List String) : EReal :=
  ((t.rows.zip wghts).map fun rw =>
    negLog1m (combinedP members rw.1) * (((rw.2 : ℝ)) : EReal)).sum

/-- `wtp_df[trans_list].sum(axis=1)` after aggregation: the sum of the
individual aggregate WTPs. -/
noncomputable def sumIndWtp (t : PTable) (wghts : List ℚ)
    (members : List String) : EReal :=
  (members.map fun c => indWtp t wghts c).sum

/-- `wtp_change = (combined - sum(individuals)) / sum(individuals)`. -/
noncomputable def wtpChange (t : PTable) (wghts : List ℚ)
    (members : List String) : EReal :=
  (combWtp t wghts members - sumIndWtp t wghts members) /
    sumIndWtp t wghts members

/-- Real-valued aggregate WTP of one choice column (the value the code
computes when no probability is 1). -/
noncomputable def indWtpR (t : PTable) (wghts : List ℚ) (c : String) : ℝ :=
  ((t.rows.zip wghts).map fun rw =>
    (- Real.log (1 - (rowQ rw.1 c : ℝ))) * (rw.2 : ℝ)).sum

/-- Real-valued aggregate WTP of the combined entity. -/
noncomputable def combWtpR (t : PTable) (wghts : List ℚ)
    (members : List String) : ℝ :=
  ((t.rows.zip wghts).map fun rw =>
    (- Real.log (1 - (combinedP members rw.1 : ℝ))) * (rw.2 : ℝ)).sum

/-- Real-valued sum of the individual aggregate WTPs. -/
noncomputable def sumIndWtpR (t : PTable) (wghts : List ℚ)
    (members : List String) : ℝ :=
  (members.map fun c => indWtpR t wghts c).sum

theorem list_sum_coe_ereal {α : Type} (l : List α) (f : α → ℝ) :
    ((l.map fun a => ((f a : ℝ) : EReal)).sum) = (((l.map f).sum : ℝ) : EReal) := by
  induction l with
  | nil => simp
  | cons a l ih =>
      simp only [List.map_cons, List.sum_cons, ih, ← EReal.coe_add]

theorem list_sum_ne_bot (l : List EReal) (h : ∀ x ∈ l, x ≠ ⊥) :
    l.sum ≠ ⊥ := by
  induction l with
  | nil => simp
  | cons a l ih =>
      rw [List.sum_cons]
      intro habs
      rcases EReal.add_eq_bot_iff.mp habs with hb | hb
      · exact h a (List.mem_cons_self a l) hb
      · exact ih (fun x hx => h x (List.mem_cons_of_mem _ hx)) hb

theorem list_sum_eq_top (l : List EReal) (h : ∀ x ∈ l, x ≠ ⊥)
    (htop : ⊤ ∈ l) : l.sum = ⊤ := by
  induction l with
  | nil => cases htop
  | cons a l ih =>
      rw [List.sum_cons]
      rcases List.mem_cons.mp htop with rfl | hmem
      · exact EReal.top_add_of_ne_bot
          (list_sum_ne_bot l fun x hx => h x (List.mem_cons_of_mem _ hx))
      · rw [ih (fun x hx => h x (List.mem_cons_of_mem _ hx)) hmem]
        exact EReal.add_top_of_ne_bot (h a (List.mem_cons_self a l))

theorem negLog1m_ne_bot (p : ℚ) (w : ℚ) (hw : 0 ≤ w) :
    negLog1m p * (((w : ℝ)) : EReal) ≠ ⊥ := by
  unfold negLog1m
  by_cases h1 : p = 1
  · rw [if_pos h1]
    rcases lt_or_eq_of_le hw with hpos | hzero
    · rw [EReal.top_mul_of_pos]
      · exact top_ne_bot
      · have hr : (0 : ℝ) < (w : ℝ) := by exact_mod_cast hpos
        exact EReal.coe_pos.mpr hr
    · rw [← hzero]
      simp
  · rw [if_neg h1, ← EReal.coe_mul]
    exact EReal.coe_ne_bot _

/-- Claim C5: `wtp_change` sums the member columns per row into a combined
probability, transforms every individual and combined probability by
`-ln(1 - p)`, multiplies each observation's transformed values by its weight,
sums over all observations and sets
`wtp_change = (combined_wtp - sum(individual_wtps)) / sum(individual_wtps)`;
when no probability equals 1 this is the plain real-number formula; the
probability-equals-1 warning flag is raised exactly when some individual or
combined probability equals 1, the computation still completes (the functions
are total), and the affected aggregate entry is infinite whenever the
degenerate observation has positive weight. -/
theorem wtp_change_formula_warning_and_infinity (t : PTable)
    (wghts : List ℚ) (members : List String) :
    ((∀ rw ∈ t.rows.zip wghts,
        (∀ c ∈ members, rowQ rw.1 c ≠ 1) ∧ combinedP members rw.1 ≠ 1) →
      wtpChange t wghts members =
        (((combWtpR t wghts members - sumIndWtpR t wghts members) /
          sumIndWtpR t wghts members : ℝ) : EReal)) ∧
    (probOneWarn t members = true ↔
      ∃ r ∈ t.rows, (∃ c ∈ members, rowQ r c = 1) ∨ combinedP members r = 1) ∧
    (∀ c ∈ members, ∀ rw ∈ t.rows.zip wghts,
      rowQ rw.1 c = 1 → 0 < rw.2 →
      (∀ rw2 ∈ t.rows.zip wghts, 0 ≤ rw2.2) →
      indWtp t wghts c = ⊤) := by
  refine ⟨?_, ?_, ?_⟩
  · intro hfin
    have hcomb : combWtp t wghts members =
        ((combWtpR t wghts members : ℝ) : EReal) := by
      unfold combWtp combWtpR
      rw [← list_sum_coe_ereal]
      refine congrArg List.sum (List.map_congr_left ?_)
      intro rw hrw
      unfold negLog1m
      rw [if_neg (hfin rw hrw).2, ← EReal.coe_mul]
    have hind : ∀ c ∈ members, indWtp t wghts c =
        ((indWtpR t wghts c : ℝ) : EReal) := by
      intro c hc
      unfold indWtp indWtpR
      rw [← list_sum_coe_ereal]
      refine congrArg List.sum (List.map_congr_left ?_)
      intro rw hrw
      unfold negLog1m
      rw [if_neg ((hfin rw hrw).1 c hc), ← EReal.coe_mul]
    have hsum : sumIndWtp t wghts members =
        ((sumIndWtpR t wghts members : ℝ) : EReal) := by
      unfold sumIndWtp sumIndWtpR
      rw [← list_sum_coe_ereal]
      exact congrArg List.sum (List.map_congr_left fun c hc => hind c hc)
    unfold wtpChange
    rw [hcomb, hsum, ← EReal.coe_sub, ← EReal.coe_div]
  · unfold probOneWarn
    rw [List.any_eq_true]
    constructor
    · rintro ⟨r, hr, hcond⟩
      rcases Bool.or_eq_true_iff.mp hcond with h | h
      · obtain ⟨c, hc, hbeq⟩ := List.any_eq_true.mp h
        exact ⟨r, hr, Or.inl ⟨c, hc, eq_of_beq hbeq⟩⟩
      · exact ⟨r, hr, Or.inr (eq_of_beq h)⟩
    · rintro ⟨r, hr, h | h⟩
      · obtain ⟨c, hc, heq⟩ := h
        refine ⟨r, hr, Bool.or_eq_true_iff.mpr (Or.inl ?_)⟩
        exact List.any_eq_true.mpr ⟨c, hc, beq_iff_eq.mpr heq⟩
      · exact ⟨r, hr, Bool.or_eq_true_iff.mpr (Or.inr (beq_iff_eq.mpr h))⟩
  · intro c _ rw hrw hone hpos hall
    unfold indWtp
    refine list_sum_eq_top _ ?_ ?_
    · intro x hx
      obtain ⟨rw2, hrw2, hval⟩ := List.mem_map.mp hx
      rw [← hval]
      exact negLog1m_ne_bot _ _ (hall rw2 hrw2)
    · refine List.mem_map.mpr ⟨rw, hrw, ?_⟩
      unfold negLog1m
      rw [if_pos hone, EReal.top_mul_of_pos]
      have hr : (0 : ℝ) < ((rw.2 : ℚ) : ℝ) := by exact_mod_cast hpos
      exact EReal.coe_pos.mpr hr

/-- A two-choice prediction table with no degenerate probability. -/
def exW : PTable where
  cols := ["X", "Y"]
  rows := [[("X", CVal.num (1/4)), ("Y", CVal.num (1/4))]]

/-- A prediction table whose first member probability is exactly 1. -/
def exW1 : PTable where
  cols := ["X", "Y"]
  rows := [[("X", CVal.num 1), ("Y", CVal.num (1/2))]]

/-- Claim C5 witness: the formula and the infinity statement at concrete
inputs. -/
theorem wtp_change_witness :
    wtpChange exW [1] ["X", "Y"] =
      (((combWtpR exW [1] ["X", "Y"] - sumIndWtpR exW [1] ["X", "Y"]) /
        sumIndWtpR exW [1] ["X", "Y"] : ℝ) : EReal) ∧
    indWtp exW1 [1] "X" = ⊤ :=
  ⟨(wtp_change_formula_warning_and_infinity exW [1] ["X", "Y"]).1
      (by norm_num +decide [exW, rowQ, rowGet, combinedP, List.find?_cons]),
   (wtp_change_formula_warning_and_infinity exW1 [1] ["X", "Y"]).2.2 "X"
      (by norm_num)
      (⟨[("X", CVal.num 1), ("Y", CVal.num (1/2))], 1⟩)
      (List.mem_singleton.mpr rfl)
      (by norm_num +decide [rowQ, rowGet, List.find?_cons])
      (by norm_num)
      (by norm_num +decide [exW1])⟩

-- upward pricing pressure -----------------------------------------------------

/-- One `upp_dict`: validated to hold exactly the keys
`{name, price, margin}` with numeric price and margin. -/
structure UppEntity where
  name : String
  price : ℚ
  margin : ℚ
deriving DecidableEq, Repr

/-- `index_keep`: the entity's choice set — the choices `corp_map` maps to its
corporation when corp and choice columns differ, else the bare name. -/
def indexKeep (corpMap : List (String × String)) (useCorpMap : Bool)
    (e : UppEntity) : List String :=
  if useCorpMap then (corpMap.filter fun r => r.1 == e.name).map fun r => r.2
  else [e.name]

/-- `div_shares[name][div_shares.index.isin(keep)].sum()`: a diversion column
restricted to a choice set. -/
def divRestricted (divCol : List (String × ℚ)) (keep : List String) : ℚ :=
  ((divCol.filter fun r => keep.contains r.1).map fun r => r.2).sum

/-- The blending weight of an entity: summed observation weight over the rows
whose corp equals the entity's name, or the raw row count when no weight
variable is set. -/
def entityObs (data : List (String × ℚ)) (hasWeight : Bool) (name : String) :
    ℚ :=
  if hasWeight then ((data.filter fun r => r.1 == name).map fun r => r.2).sum
  else ((data.filter fun r => r.1 == name).length : ℚ)

/-- The `upp` computation: `(upp1, upp2, avg_upp)`. -/
def uppCalc (corpMap : List (String × String)) (useCorpMap : Bool)
    (e1 e2 : UppEntity) (div1 div2 : List (String × ℚ))
    (data : List (String × ℚ)) (hasWeight : Bool) : ℚ × ℚ × ℚ :=
  let div1to2 := divRestricted div1 (indexKeep corpMap useCorpMap e2)
  let div2to1 := divRestricted div2 (indexKeep corpMap useCorpMap e1)
  let upp1 := div1to2 * e2.margin * e2.price / e1.price
  let upp2 := div2to1 * e1.margin * e1.price / e2.price
  let obs1 := entityObs data hasWeight e1.name
  let obs2 := entityObs data hasWeight e2.name
  (upp1, upp2, (upp1 * obs1 + upp2 * obs2) / (obs1 + obs2))

/-- Claim C6: `upp` returns
`upp_A = div_A_to_B * margin_B * price_B / price_A` with `div_A_to_B` the sum
of A's diversion column restricted to B's choice set, the symmetric `upp_B`,
and `avg_upp` the average of the two weighted by each entity's total observed
weight (or raw count when unweighted); in particular `avg_upp` always lies
between the two UPP values when the blending weights are nonnegative with
positive total. -/
theorem upp_formula_and_weighted_average
    (corpMap : List (String × String)) (useCorpMap : Bool)
    (e1 e2 : UppEntity) (div1 div2 : List (String × ℚ))
    (data : List (String × ℚ)) (hasWeight : Bool)
    (h1 : 0 ≤ entityObs data hasWeight e1.name)
    (h2 : 0 ≤ entityObs data hasWeight e2.name)
    (hsum : 0 < entityObs data hasWeight e1.name +
      entityObs data hasWeight e2.name) :
    uppCalc corpMap useCorpMap e1 e2 div1 div2 data hasWeight =
      (divRestricted div1 (indexKeep corpMap useCorpMap e2) * e2.margin *
          e2.price / e1.price,
        divRestricted div2 (indexKeep corpMap useCorpMap e1) * e1.margin *
          e1.price / e2.price,
        (divRestricted div1 (indexKeep corpMap useCorpMap e2) * e2.margin *
            e2.price / e1.price * entityObs data hasWeight e1.name +
          divRestricted div2 (indexKeep corpMap useCorpMap e1) * e1.margin *
            e1.price / e2.price * entityObs data hasWeight e2.name) /
          (entityObs data hasWeight e1.name +
            entityObs data hasWeight e2.name)) ∧
    min (uppCalc corpMap useCorpMap e1 e2 div1 div2 data hasWeight).1
        (uppCalc corpMap useCorpMap e1 e2 div1 div2 data hasWeight).2.1 ≤
      (uppCalc corpMap useCorpMap e1 e2 div1 div2 data hasWeight).2.2 ∧
    (uppCalc corpMap useCorpMap e1 e2 div1 div2 data hasWeight).2.2 ≤
      max (uppCalc corpMap useCorpMap e1 e2 div1 div2 data hasWeight).1
        (uppCalc corpMap useCorpMap e1 e2 div1 div2 data hasWeight).2.1 := by
  refine ⟨rfl, ?_, ?_⟩
  · show min _ _ ≤ (_ * entityObs data hasWeight e1.name +
      _ * entityObs data hasWeight e2.name) /
      (entityObs data hasWeight e1.name + entityObs data hasWeight e2.name)
    rw [le_div_iff₀ hsum]
    have ha := mul_le_mul_of_nonneg_right
      (min_le_left (uppCalc corpMap useCorpMap e1 e2 div1 div2 data hasWeight).1
        (uppCalc corpMap useCorpMap e1 e2 div1 div2 data hasWeight).2.1) h1
    have hb := mul_le_mul_of_nonneg_right
      (min_le_right (uppCalc corpMap useCorpMap e1 e2 div1 div2 data hasWeight).1
        (uppCalc corpMap useCorpMap e1 e2 div1 div2 data hasWeight).2.1) h2
    rw [mul_add]
    exact add_le_add ha hb
  · show (_ * entityObs data hasWeight e1.name +
      _ * entityObs data hasWeight e2.name) /
      (entityObs data hasWeight e1.name + entityObs data hasWeight e2.name) ≤
      max _ _
    rw [div_le_iff₀ hsum]
    have ha := mul_le_mul_of_nonneg_right
      (le_max_left (uppCalc corpMap useCorpMap e1 e2 div1 div2 data hasWeight).1
        (uppCalc corpMap useCorpMap e1 e2 div1 div2 data hasWeight).2.1) h1
    have hb := mul_le_mul_of_nonneg_right
      (le_max_right (uppCalc corpMap useCorpMap e1 e2 div1 div2 data hasWeight).1
        (uppCalc corpMap useCorpMap e1 e2 div1 div2 data hasWeight).2.1) h2
    rw [mul_add]
    exact add_le_add ha hb

/-- Claim C6 witness: the UPP theorem applied at a concrete pair of
entities. -/
theorem upp_weighted_average_witness :
    min (uppCalc [] false ⟨"A", 10, 1/2⟩ ⟨"B", 20, 1/4⟩
        [("B", 3/10), ("C", 7/10)] [("A", 2/5), ("C", 3/5)]
        [("A", 2), ("B", 3)] true).1
      (uppCalc [] false ⟨"A", 10, 1/2⟩ ⟨"B", 20, 1/4⟩
        [("B", 3/10), ("C", 7/10)] [("A", 2/5), ("C", 3/5)]
        [("A", 2), ("B", 3)] true).2.1 ≤
    (uppCalc [] false ⟨"A", 10, 1/2⟩ ⟨"B", 20, 1/4⟩
        [("B", 3/10), ("C", 7/10)] [("A", 2/5), ("C", 3/5)]
        [("A", 2), ("B", 3)] true).2.2 :=
  (upp_formula_and_weighted_average [] false ⟨"A", 10, 1/2⟩ ⟨"B", 20, 1/4⟩
    [("B", 3/10), ("C", 7/10)] [("A", 2/5), ("C", 3/5)]
    [("A", 2), ("B", 3)] true
    (by norm_num +decide [entityObs, List.filter_cons])
    (by norm_num +decide [entityObs, List.filter_cons])
    (by norm_num +decide [entityObs, List.filter_cons])).2.1

-- the estimator's fitted state and the four calculator methods ----------------

/-- The fitted cell table `self.coef_`: one share row per group key. -/
def FittedCoef : Type := List (String × List (String × ℚ))

/-- `check_is_fitted`: raises `RuntimeError` when `self.coef_` is absent. -/
def checkIsFitted (coef : Option FittedCoef) : Except String Unit :=
  match coef with
  | none => Except.error "Instance of DiscreteChoice is not fitted"
  | some _ => Except.ok ()

/-- `predict`: the only calculator that calls `check_is_fitted` before
computing; on a fitted estimator it returns each observation's matched share
row. -/
def predictMethod (coef : Option FittedCoef) (k : Nat)
    (covsList : List (List String)) :
    Except String (List (Option (List (String × ℚ)))) :=
  match coef with
  | none => Except.error "Instance of DiscreteChoice is not fitted"
  | some table =>
      Except.ok (covsList.map fun covs => predictRow table k covs)

/-- `diversion` as a method: the source validates its arguments (non-empty
target list, equal row counts, observed choices present as columns) but never
reads `self.coef_`, so the fitted state is accepted unused. -/
def diversionMethod (_coef : Option FittedCoef) (t : PTable)
    (cdChoices : List String) (wghts : List ℚ)
    (corpMap : List (String × String)) (useCorpMap : Bool)
    (divChoices : List String) :
    Except String (PTable × List (String × List (String × Option ℚ))) :=
  if divChoices.length = 0 then
    Except.error "choices must have atleast a length of 1"
  else if t.rows.length ≠ cdChoices.length then
    Except.error "length of choice_probs and cd.data should be the same"
  else
    let t1 := setCol t "choice" (cdChoices.map CVal.str)
    if (allChoices t1).any fun c => !(t1.cols.contains c) then
      Except.error "is not a column in choice_probs"
    else
      Except.ok (diversionRun t cdChoices wghts corpMap useCorpMap divChoices)

/-- `wtp_change` as a method (one transaction): the source validates the
transaction list but never reads `self.coef_`. -/
noncomputable def wtpMethod (_coef : Option FittedCoef) (t : PTable)
    (wghts : List ℚ) (members : List String) : Except String EReal :=
  if members.length < 2 then
    Except.error "trans_list needs atleast 2 choices"
  else if members.any fun c => !(t.cols.contains c) then
    Except.error "is not a choice in choice_probs"
  else
    Except.ok (wtpChange t wghts members)

/-- `upp` as a method: the source validates the two entity dicts against the
corp column but never reads `self.coef_`. -/
def uppMethod (_coef : Option FittedCoef) (dataCorps : List String)
    (corpMap : List (String × String)) (useCorpMap : Bool)
    (e1 e2 : UppEntity) (div1 div2 : List (String × ℚ))
    (data : List (String × ℚ)) (hasWeight : Bool) :
    Except String (ℚ × ℚ × ℚ) :=
  if !(dataCorps.contains e1.name) then
    Except.error "is not a choice in ChoiceData"
  else if !(dataCorps.contains e2.name) then
    Except.error "is not a choice in ChoiceData"
  else
    Except.ok (uppCalc corpMap useCorpMap e1 e2 div1 div2 data hasWeight)

/-- Claim C7 counterexample: on a never-fitted estimator (`coef_` absent), a
valid `diversion` call completes normally instead of raising the "not fitted"
StateError. -/
theorem unfitted_diversion_completes :
    diversionMethod none exPre ["A", "A", "A", "B", "C"] [1, 1, 1, 1, 1] []
      false ["A"] =
    Except.ok (diversionRun exPre ["A", "A", "A", "B", "C"] [1, 1, 1, 1, 1]
      [] false ["A"]) := rfl

/-- Claim C7 (amended): on a never-fitted estimator `predict` raises the
"not fitted" error for every input, but `diversion`, `wtp_change` and `upp`
perform no fitted-state check: given arguments passing their own validations
they complete normally. -/
theorem unfitted_guard_only_protects_predict :
    (∀ (k : Nat) (covsList : List (List String)),
      predictMethod none k covsList =
        Except.error "Instance of DiscreteChoice is not fitted") ∧
    (∀ (t : PTable) (cdChoices : List String) (wghts : List ℚ)
        (corpMap : List (String × String)) (useCorpMap : Bool)
        (divChoices : List String),
      divChoices.length ≠ 0 →
      t.rows.length = cdChoices.length →
      ¬((allChoices (setCol t "choice" (cdChoices.map CVal.str))).any
          fun c => !((setCol t "choice"
            (cdChoices.map CVal.str)).cols.contains c)) = true →
      diversionMethod none t cdChoices wghts corpMap useCorpMap divChoices =
        Except.ok (diversionRun t cdChoices wghts corpMap useCorpMap
          divChoices)) ∧
    (∀ (t : PTable) (wghts : List ℚ) (members : List String),
      2 ≤ members.length →
      ¬(members.any fun c => !(t.cols.contains c)) = true →
      wtpMethod none t wghts members =
        Except.ok (wtpChange t wghts members)) ∧
    (∀ (dataCorps : List String) (corpMap : List (String × String))
        (useCorpMap : Bool) (e1 e2 : UppEntity)
        (div1 div2 : List (String × ℚ)) (data : List (String × ℚ))
        (hasWeight : Bool),
      dataCorps.contains e1.name = true →
      dataCorps.contains e2.name = true →
      uppMethod none dataCorps corpMap useCorpMap e1 e2 div1 div2 data
          hasWeight =
        Except.ok (uppCalc corpMap useCorpMap e1 e2 div1 div2 data
          hasWeight)) := by
  refine ⟨fun k covsList => rfl, ?_, ?_, ?_⟩
  · intro t cdChoices wghts corpMap useCorpMap divChoices hne hlen hcols
    unfold diversionMethod
    rw [if_neg (by simpa using hne), if_neg (by simpa using hlen),
      if_neg hcols]
  · intro t wghts members hlen hcols
    unfold wtpMethod
    rw [if_neg (by omega), if_neg hcols]
  · intro dataCorps corpMap useCorpMap e1 e2 div1 div2 data hasWeight h1 h2
    unfold uppMethod
    rw [if_neg (by simpa using h1), if_neg (by simpa using h2)]

/-- Claim C7 witness: the amended unfitted-behaviour theorem applied at
concrete inputs. -/
theorem unfitted_guard_witness :
    predictMethod none 2 [["a", "x"]] =
      Except.error "Instance of DiscreteChoice is not fitted" ∧
    wtpMethod none exW [1] ["X", "Y"] =
      Except.ok (wtpChange exW [1] ["X", "Y"]) ∧
    uppMethod none ["A", "B"] [] false ⟨"A", 10, 1/2⟩ ⟨"B", 20, 1/4⟩ [] []
        [] true =
      Except.ok (uppCalc [] false ⟨"A", 10, 1/2⟩ ⟨"B", 20, 1/4⟩ [] [] []
        true) :=
  ⟨unfitted_guard_only_protects_predict.1 2 [["a", "x"]],
   unfitted_guard_only_protects_predict.2.2.1 exW [1] ["X", "Y"]
     (by decide) (by decide),
   unfitted_guard_only_protects_predict.2.2.2 ["A", "B"] [] false
     ⟨"A", 10, 1/2⟩ ⟨"B", 20, 1/4⟩ [] [] [] true (by decide) (by decide)⟩

-- ChoiceData construction validation ------------------------------------------

/-- The no-missing-values loop of `ChoiceData.__init__`:
`for nonull in [choice_var, corp_var]` raises
`ValueError("{nonull} has missing values")` — but the condition reads
`data[self.choice_var]` in BOTH iterations, so the corp column is never
inspected. -/
def choiceDataMissingCheck (choiceCol : List String)
    (_corpCol : List String) (choiceVar corpVar : String) :
    Except String Unit :=
  if choiceCol.contains "" then
    Except.error (choiceVar ++ " has missing values")
  else if choiceCol.contains "" then
    Except.error (corpVar ++ " has missing values")
  else Except.ok ()

/-- Claim C9 (code bug): the constructor was meant to reject empty values in
both identity columns, but a corp column consisting solely of empty values
passes the check unnoticed while an empty value in the choice column raises
as documented. -/
theorem corp_column_missing_values_unchecked :
    choiceDataMissingCheck ["a"] [""] "choice" "corporation" =
      Except.ok () ∧
    choiceDataMissingCheck [""] ["x"] "choice" "corporation" =
      Except.error "choice has missing values" := ⟨rfl, rfl⟩

-- DiscreteChoice construction validation --------------------------------------

/-- The default of the constructor's `solver` parameter: the misspelled
string `'semiperametric'`. -/
def defaultSolver : String := "semiperametric"

/-- `current_solvers = ['semiparametric']`. -/
def currentSolvers : List String := ["semiparametric"]

/-- The validation chain of `DiscreteChoice.__init__` (`copy_x`/`verbose`
type checks are carried by the embedding's types; `coef_order = none` models
the default `None`, which fails the `type(coef_order) != list` check). -/
def discreteChoiceInit (solver : String) (coefOrder : Option (List String))
    (minBin : ℚ) : Except String Unit :=
  if solver ∉ currentSolvers then
    Except.error (solver ++ " is not supported solver.")
  else if coefOrder = none then
    Except.error "coef_order expected to be list."
  else if (coefOrder.getD []).length = 0 then
    Except.error "coef_order must be a non-empty list"
  else if minBin ≤ 0 then
    Except.error "min_bin must be greater than 0"
  else Except.ok ()

/-- Claim C10: a construction that omits the solver argument uses the default
string `'semiperametric'`, which is not in the supported-solver list, so it
raises at construction time for every choice of the other arguments; an
instance can only be created by passing `solver='semiparametric'`
explicitly. -/
theorem default_solver_always_rejected (coefOrder : Option (List String))
    (minBin : ℚ) :
    discreteChoiceInit defaultSolver coefOrder minBin =
      Except.error (defaultSolver ++ " is not supported solver.") ∧
    (∀ solver : String,
      (∃ u, discreteChoiceInit solver coefOrder minBin = Except.ok u) →
      solver = "semiparametric") := by
  constructor
  · unfold discreteChoiceInit
    rw [if_pos (by decide)]
  · rintro solver ⟨u, hok⟩
    by_cases hs : solver ∈ currentSolvers
    · simpa [currentSolvers] using hs
    · unfold discreteChoiceInit at hok
      rw [if_pos hs] at hok
      cases hok

/-- Claim C10 witness: the rejection theorem at concrete arguments, plus the
explicit-solver construction that does succeed. -/
theorem default_solver_witness :
    (∃ u, discreteChoiceInit "semiparametric" (some ["x1"]) 25 =
      Except.ok u) ∧
    "semiparametric" = "semiparametric" :=
  ⟨⟨(), rfl⟩,
   (default_solver_always_rejected (some ["x1"]) 25).2 "semiparametric"
     ⟨(), rfl⟩⟩

-- witnesses for the grouping, cell-table and predictor claims -----------------

/-- Three observations on two covariates: with `min_bin = 2` the third is
grouped in round 1 (full prefix, weight 3) and the first two in round 2
(single covariate, combined weight 2). -/
def exObs : List Obs :=
  [⟨["a", "x"], "A", 1⟩, ⟨["a", "y"], "B", 1⟩, ⟨["b", "x"], "A", 3⟩]

/-- Claim C1 witness: the grouping theorem applied to `exObs`. -/
theorem fit_grouping_witness :
    fitGroups 2 exObs 2 = specGroups 2 exObs 2 ∧
    (fitGroups 2 exObs 2).length = exObs.length :=
  ⟨(fit_semiparametric_round_structure_and_grouping 2 exObs 2 (by decide)).2.1,
   (fit_semiparametric_round_structure_and_grouping 2 exObs 2
     (by decide)).2.2.1⟩

/-- Claim C2 witness: the cell-table theorem applied to `exObs`. -/
theorem fit_cell_table_witness :
    "ungrouped" ∈ tableGroups (fitGroups 2 exObs 2) ↔
      ∃ j < exObs.length, ∀ r < 2, ¬ eligAt 2 exObs 2 r j :=
  (fit_cell_table_normalized 2 exObs 2 (by decide) (by decide)).2

/-- Claim C3 witness: the predictor theorem applied to a fitted key list and
one observation's covariates. -/
theorem predict_match_witness :
    predictGroup ["a", "a\x08x"] 2 ["a", "y"] =
      longestMatch ["a", "a\x08x"] 2 ["a", "y"] :=
  (predict_longest_prefix_match ["a", "a\x08x"] 2 ["a", "y"] (by decide)).1

/-- Claim C4 witness: the diversion-normalization part applied to the worked
example's mutated table and target `{A}`. -/
theorem diversion_normalization_witness :
    ((nonTargetCols exMut ["A"]).map
      (fun c => divColSum exMut ["A"] c / divTotal exMut ["A"])).sum = 1 :=
  diversion_renormalizes_and_example.2.1 exMut ["A"] (by
    have hB : divColSum exMut ["A"] "B" = 6 / 5 := by
      norm_num +decide [divColSum, selRows, rowsumOf, nonTargetCols,
        allChoices, rowQ, rowS, rowGet, exMut, List.find?_cons,
        List.filter_cons]
    have hC : divColSum exMut ["A"] "C" = 9 / 5 := by
      norm_num +decide [divColSum, selRows, rowsumOf, nonTargetCols,
        allChoices, rowQ, rowS, rowGet, exMut, List.find?_cons,
        List.filter_cons]
    have hnt : nonTargetCols exMut ["A"] = ["B", "C"] := rfl
    show divTotal exMut ["A"] ≠ 0
    unfold divTotal
    rw [hnt]
    simp only [List.map_cons, List.map_nil, List.sum_cons, List.sum_nil,
      hB, hC]
    norm_num)

end Pymanda
